import Mathlib

/-
Verification of the halo2 less-than / native range-check gadgets
(src/native_range_check.rs, src/less_than.rs, src/main.rs).

The circuits operate over the Pallas base field.  We embed field elements
as ZMod pallasP, witness computation as pure functions, and the registered
constraints (one linear gate, per-row lookups into the window table, the
strict final-zero constant constraint, and the copy constraints tying the
chain heads to the compared cells) as decidable checks on the honestly
synthesized witness.  A circuit instance is called satisfiable exactly when
the witness produced by synthesize meets every registered constraint: this
is the judgement main.rs makes through MockProver, which evaluates all
constraints on the assigned witness.  Rust assert macros (witness-time
panics) are modelled by Option: none is a panic, some w a completed
synthesis with witness w.
-/

namespace Halo2LessThan

/-- Modulus of the Pallas base field (the pasta curves' Fp used by both
chips), equal to 2 to the 254 plus 45560315531419706090280762371685220353. -/
def pallasP : ℕ :=
  28948022309329048855892746252171976963363056481941560715954676764349967630337

/-- Field elements, pallas::Base in the source. -/
abbrev Fp := ZMod pallasP

instance : NeZero pallasP := ⟨by decide⟩

/-- Circuit parameters fixed in main.rs lines 13-15. -/
def WINDOW_SIZE : ℕ := 3

/-- NUM_BITS from main.rs. -/
def NUM_BITS : ℕ := 253

/-- NUM_WINDOWS from main.rs. -/
def NUM_WINDOWS : ℕ := 85

/-- Little-endian value of a bit list; the first element is the least
significant bit.  This is the reference semantics bit chunks are measured
against. -/
def bitsVal : List Bool → ℕ
  | [] => 0
  | b :: l => 2 * bitsVal l + b.toNat

/-- The low n bits of m, least significant first: value.to_le_bits()
truncated with take(n) in decompose_value (native_range_check.rs line 109). -/
def toLeBits (m n : ℕ) : List Bool :=
  (List.range n).map (fun i => Nat.testBit m i)

/-- Value of one window chunk, native_range_check.rs line 157: the chunk is
folded from the most significant end, acc goes to 2 * acc + bit, so the
chunk is read little-endian. -/
def chunkValue (chunk : List Bool) : ℕ :=
  (chunk.reverse).foldl (fun acc c => 2 * acc + c.toNat) 0

/-- Fuel-driven implementation of slice::chunks_exact from
native_range_check.rs line 117: split a bit list into consecutive chunks of
width W, dropping any incomplete tail.  The fuel argument (instantiated
with the list length) only makes the recursion structural. -/
def chunksExactAux (W : ℕ) : ℕ → List Bool → List (List Bool)
  | 0, _ => []
  | fuel + 1, bits =>
    if 0 < W ∧ W ≤ bits.length then
      bits.take W :: chunksExactAux W fuel (bits.drop W)
    else []

/-- chunks_exact with width W. -/
def chunksExact (W : ℕ) (bits : List Bool) : List (List Bool) :=
  chunksExactAux W bits.length bits

/-- Zero padding added at the most significant end,
native_range_check.rs line 107. -/
def padding (W NB : ℕ) : ℕ := (W - NB % W) % W

/-- Sum of window values with weights 2 to the (W * i):
windowSum W [k0, k1, ...] is k0 + 2^W * k1 + ... -/
def windowSum (W : ℕ) : List ℕ → ℕ
  | [] => 0
  | k :: ks => k + 2 ^ W * windowSum W ks

/-- Field-valued window sum, same weights. -/
def windowSumF (W : ℕ) : List Fp → Fp
  | [] => 0
  | k :: ks => k + (2 : Fp) ^ W * windowSumF W ks

namespace NativeRangeCheckChip

/-- Columns and selector recorded by NativeRangeCheckChip::configure
(native_range_check.rs lines 77-81).  Column and selector identities are
backend handles; we carry them as numbers, with the freshly allocated
selector abstracted as id 0. -/
structure Config where
  z : ℕ
  s_rc : ℕ
  k_values_table : ℕ

/-- NativeRangeCheckChip::configure, native_range_check.rs lines 54-82.
It enables equality on z, allocates a selector, registers the single
lookup constraint, and returns the config.  There is no conditional and no
failure path: every parameterization is accepted. -/
def configure (W NB NW : ℕ) (z k_values_table : ℕ) : Config :=
  { z := z, s_rc := 0, k_values_table := k_values_table }

/-- NativeRangeCheckChip::load_k_table, native_range_check.rs lines 86-104:
the rows assigned to the lookup table, the field elements of
0, 1, ..., 2^W - 1 in index order. -/
def load_k_table (W : ℕ) : List Fp :=
  (List.range (2 ^ W)).map (fun i => ((i : ℕ) : Fp))

/-- NativeRangeCheckChip::decompose_value, native_range_check.rs lines
106-124: take the low NB bits of the value, pad with
(W - NB % W) % W zero bits, and split into chunks of W bits. -/
def decompose_value (W NB : ℕ) (v : Fp) : List (List Bool) :=
  let bits := toLeBits v.val NB ++ List.replicate (padding W NB) false
  chunksExact W bits

/-- The integer window values of a decomposed value. -/
def windowValues (W NB : ℕ) (v : Fp) : List ℕ :=
  (decompose_value W NB v).map chunkValue

/-- The window values lifted to the field, as assigned in the decompose
loop (native_range_check.rs lines 156-158). -/
def windowValuesF (W NB : ℕ) (v : Fp) : List Fp :=
  (decompose_value W NB v).map (fun c => ((chunkValue c : ℕ) : Fp))

/-- two_pow_k_inverse, native_range_check.rs lines 147-151: the source asks
the ff library (an external collaborator) for the multiplicative inverse of
2^W via invert().unwrap().  Because pallasP is odd, the inverse of 2 is
(pallasP + 1) / 2, and the inverse of 2^W is its W-th power; this
executable definition is extensionally the same element, as the lemma
two_pow_mul_inverse certifies. -/
def two_pow_k_inverse (W : ℕ) : Fp :=
  (((pallasP + 1) / 2 : ℕ) : Fp) ^ W

/-- The decomposition chain z_0, z_1, ..., built by the loop in
native_range_check.rs lines 153-170: z_values starts as [z_0] and each step
appends z_next = (z_curr - k_i) * two_pow_k_inverse. -/
def chainFrom (W : ℕ) (z : Fp) : List Fp → List Fp
  | [] => [z]
  | k :: ks => z :: chainFrom W ((z - k) * two_pow_k_inverse W) ks

/-- NativeRangeCheckChip::decompose, native_range_check.rs lines 126-180,
witness side: the two assert macros are the panic (none) paths; on success
the assigned chain z_0 .. z_NW is returned.  The first guard is the
explicit assert on line 133; the second is the z_values length assert on
line 172, which fails exactly when decompose_value yielded a number of
chunks different from NUM_WINDOWS (in the source this panics either there
or already inside transpose_vec at line 145).  Selector enablement and the
strict constant constraint register relations checked later by the
prover; they are evaluated by rangeCheckOk below. -/
def decompose (W NB NW : ℕ) (v : Fp) : Option (List Fp) :=
  if W * NW < NB + W then
    let zs := chainFrom W v (windowValuesF W NB v)
    if zs.length = NW + 1 then some zs else none
  else none

/-- Membership of a field element in the loaded window table: the lookup
argument accepts a row value exactly when it equals one of the table
rows. -/
def inTable (W : ℕ) (x : Fp) : Bool :=
  decide (x ∈ load_k_table W)

/-- Evaluation of the lookup constraint registered in configure
(native_range_check.rs lines 64-75) on the honest witness: for every row i
with the selector enabled (rows 0 .. NW-1, hence every adjacent pair of the
chain), z_curr - z_next * 2^W must be a member of the table. -/
def lookupsOk (W : ℕ) : List Fp → Bool
  | z₁ :: z₂ :: rest => inTable W (z₁ - z₂ * (2 : Fp) ^ W) && lookupsOk W (z₂ :: rest)
  | _ => true

/-- All constraints the range check places on an assigned chain: the
lookups, and if strict the constrain_constant of the last chain element to
zero (native_range_check.rs lines 174-177). -/
def rangeCheckOk (W : ℕ) (zs : List Fp) (strict : Bool) : Bool :=
  lookupsOk W zs && (!strict || decide (zs.getLast? = some 0))

/-- NativeRangeCheckChip::witness_range_check, native_range_check.rs lines
182-196, combined with the later constraint evaluation: none is a
witness-time panic, some b reports whether the synthesized circuit is
satisfied. -/
def witness_range_check (W NB NW : ℕ) (v : Fp) (strict : Bool) : Option Bool :=
  (decompose W NB NW v).map (fun zs => rangeCheckOk W zs strict)

/-- NativeRangeCheckChip::copy_range_check, native_range_check.rs lines
198-213: identical to witness_range_check except that z_0 is an
equality-constrained copy of an existing cell; the constraint content is
the same. -/
def copy_range_check (W NB NW : ℕ) (v : Fp) (strict : Bool) : Option Bool :=
  witness_range_check W NB NW v strict

end NativeRangeCheckChip

namespace LessThanChip

/-- The constant 2^NUM_OF_BITS used by the gate and the witness
computation, less_than.rs lines 104-105 and 197. -/
def two_pow_m (NB : ℕ) : Fp := (2 : Fp) ^ NB

/-- Evaluation of the single gate registered by LessThanChip::configure
(less_than.rs lines 99-108) at a row with the selector enabled:
a_offset - 2^m + b - a = 0. -/
def gateOk (NB : ℕ) (a b a_offset : Fp) : Bool :=
  decide (a_offset - two_pow_m NB + b - a = 0)

/-- LessThanChip::less_than, less_than.rs lines 186-203: enables the gate
selector and assigns a_offset = a + (2^m - b), computed in the field. -/
def less_than (NB : ℕ) (a b : Fp) : Fp :=
  a + (two_pow_m NB - b)

/-- The witness data assigned by witness_less_than: the cells a, b,
a_offset and the two decomposition chains (over helper columns z1 for a
and z2 for a_offset). -/
structure Witness where
  a : Fp
  b : Fp
  a_offset : Fp
  z1 : List Fp
  z2 : List Fp

/-- LessThanChip::witness_less_than, less_than.rs lines 113-134, witness
side: assign a, b, compute a_offset via less_than, then run decompose on a
and on a_offset through less_than_range_check / copy_range_check.  none is
a witness-time panic inside decompose. -/
def witness_less_than (W NB NW : ℕ) (a b : Fp) : Option Witness :=
  (NativeRangeCheckChip.decompose W NB NW a).bind fun z1 =>
    (NativeRangeCheckChip.decompose W NB NW (less_than NB a b)).map fun z2 =>
      { a := a, b := b, a_offset := less_than NB a b, z1 := z1, z2 := z2 }

/-- All constraints of the less-than circuit evaluated on the honest
witness: the linear gate, both range checks with the requested strictness,
and the copy constraints that tie the head of chain z1 to a and the head
of chain z2 to a_offset (the copy_advice calls in copy_range_check). -/
def circuitOk (W NB : ℕ) (w : Witness) (strict : Bool) : Bool :=
  gateOk NB w.a w.b w.a_offset
    && NativeRangeCheckChip.rangeCheckOk W w.z1 strict
    && NativeRangeCheckChip.rangeCheckOk W w.z2 strict
    && decide (w.z1.head? = some w.a)
    && decide (w.z2.head? = some w.a_offset)

/-- Satisfiability of the circuit instance built by witness_less_than, in
the sense main.rs checks it: MockProver evaluates every registered
constraint on the synthesized witness.  none is a witness-time panic,
some true a satisfied instance, some false an unsatisfiable one. -/
def lessThanSat (W NB NW : ℕ) (a b : Fp) (strict : Bool) : Option Bool :=
  (witness_less_than W NB NW a b).map (fun w => circuitOk W NB w strict)

end LessThanChip

/-! Basic facts about little-endian bit values. -/

theorem bitsVal_lt (l : List Bool) : bitsVal l < 2 ^ l.length := by
  induction l with
  | nil => simp [bitsVal]
  | cons b l ih =>
    have hb : b.toNat ≤ 1 := Bool.toNat_le b
    simp only [bitsVal, List.length_cons, pow_succ]
    omega

theorem chunkValue_eq_bitsVal (l : List Bool) : chunkValue l = bitsVal l := by
  unfold chunkValue
  rw [List.foldl_reverse]
  induction l with
  | nil => rfl
  | cons b l ih => simp only [List.foldr_cons, bitsVal, ih]

theorem bitsVal_append (l₁ l₂ : List Bool) :
    bitsVal (l₁ ++ l₂) = bitsVal l₁ + 2 ^ l₁.length * bitsVal l₂ := by
  induction l₁ with
  | nil => simp [bitsVal]
  | cons b l ih =>
    simp only [List.cons_append, bitsVal, List.append_eq, ih, List.length_cons, pow_succ]
    ring

theorem bitsVal_replicate_false (n : ℕ) : bitsVal (List.replicate n false) = 0 := by
  induction n with
  | zero => rfl
  | succ n ih => simp [List.replicate_succ, bitsVal, ih]

theorem toLeBits_succ (m n : ℕ) :
    toLeBits m (n + 1) = Nat.testBit m 0 :: toLeBits (m / 2) n := by
  unfold toLeBits
  rw [List.range_succ_eq_map, List.map_cons, List.map_map]
  congr 1
  apply List.map_congr_left
  intro i _
  exact Nat.testBit_succ m i

theorem toLeBits_length (m n : ℕ) : (toLeBits m n).length = n := by
  simp [toLeBits]

theorem bitsVal_toLeBits (n : ℕ) : ∀ m, bitsVal (toLeBits m n) = m % 2 ^ n := by
  induction n with
  | zero => intro m; simp [toLeBits, bitsVal, Nat.mod_one]
  | succ n ih =>
    intro m
    rw [toLeBits_succ]
    simp only [bitsVal]
    rw [ih (m / 2)]
    have h0 : (Nat.testBit m 0).toNat = m % 2 := by
      rw [Nat.testBit_zero]
      rcases Nat.mod_two_eq_zero_or_one m with h | h <;> simp [h]
    rw [h0, pow_succ, mul_comm (2 ^ n) 2, Nat.mod_mul]
    omega

/-! Facts about chunks_exact. -/

theorem chunksExactAux_congr (W : ℕ) :
    ∀ f₁ f₂ (bits : List Bool), bits.length ≤ f₁ → bits.length ≤ f₂ →
      chunksExactAux W f₁ bits = chunksExactAux W f₂ bits := by
  intro f₁
  induction f₁ with
  | zero =>
    intro f₂ bits h1 _
    have hb : bits = [] := List.eq_nil_of_length_eq_zero (Nat.le_zero.mp h1)
    subst hb
    cases f₂ with
    | zero => rfl
    | succ f₂ =>
      simp only [chunksExactAux, List.length_nil]
      rw [if_neg (by omega)]
  | succ f ih =>
    intro f₂ bits h1 h2
    cases f₂ with
    | zero =>
      have hb : bits = [] := List.eq_nil_of_length_eq_zero (Nat.le_zero.mp h2)
      subst hb
      simp only [chunksExactAux, List.length_nil]
      rw [if_neg (by omega)]
    | succ f₂ =>
      simp only [chunksExactAux]
      by_cases h : 0 < W ∧ W ≤ bits.length
      · rw [if_pos h, if_pos h]
        have hd : (bits.drop W).length = bits.length - W := List.length_drop W bits
        rw [ih f₂ (bits.drop W) (by omega) (by omega)]
      · rw [if_neg h, if_neg h]

theorem chunksExact_cons (W : ℕ) (hW : 0 < W) (bits : List Bool) (h : W ≤ bits.length) :
    chunksExact W bits = bits.take W :: chunksExact W (bits.drop W) := by
  unfold chunksExact
  obtain ⟨n, hn⟩ : ∃ n, bits.length = n + 1 := ⟨bits.length - 1, by omega⟩
  rw [hn]
  simp only [chunksExactAux]
  rw [if_pos ⟨hW, by omega⟩]
  congr 1
  exact chunksExactAux_congr W n (bits.drop W).length (bits.drop W)
    (by rw [List.length_drop]; omega) le_rfl

theorem chunksExact_nil_of_lt (W : ℕ) (bits : List Bool) (h : bits.length < W) :
    chunksExact W bits = [] := by
  unfold chunksExact
  cases hn : bits.length with
  | zero => rfl
  | succ n =>
    simp only [chunksExactAux]
    rw [if_neg (by omega)]

theorem chunksExact_length (W : ℕ) (hW : 0 < W) (bits : List Bool) :
    (chunksExact W bits).length = bits.length / W := by
  suffices H : ∀ n (bits : List Bool), bits.length = n →
      (chunksExact W bits).length = bits.length / W from H bits.length bits rfl
  intro n
  induction n using Nat.strong_induction_on with
  | _ n ih =>
    intro bits hlen
    by_cases h : W ≤ bits.length
    · rw [chunksExact_cons W hW bits h, List.length_cons]
      rw [ih ((bits.drop W).length) (by rw [List.length_drop]; omega) (bits.drop W) rfl]
      rw [List.length_drop]
      conv_rhs => rw [Nat.div_eq]
      rw [if_pos ⟨hW, h⟩]
    · rw [chunksExact_nil_of_lt W bits (by omega), List.length_nil,
        Nat.div_eq_of_lt (by omega)]

theorem chunksExact_mem_length (W : ℕ) (hW : 0 < W) (bits : List Bool) :
    ∀ c ∈ chunksExact W bits, c.length = W := by
  suffices H : ∀ n (bits : List Bool), bits.length = n →
      ∀ c ∈ chunksExact W bits, c.length = W from H bits.length bits rfl
  intro n
  induction n using Nat.strong_induction_on with
  | _ n ih =>
    intro bits hlen c hc
    by_cases h : W ≤ bits.length
    · rw [chunksExact_cons W hW bits h] at hc
      rcases List.mem_cons.mp hc with h1 | h1
      · subst h1; rw [List.length_take]; exact min_eq_left h
      · exact ih ((bits.drop W).length) (by rw [List.length_drop]; omega)
          (bits.drop W) rfl c h1
    · rw [chunksExact_nil_of_lt W bits (by omega)] at hc
      exact absurd hc (List.not_mem_nil c)

theorem windowSum_chunks (W : ℕ) (hW : 0 < W) (bits : List Bool) (hd : W ∣ bits.length) :
    windowSum W ((chunksExact W bits).map chunkValue) = bitsVal bits := by
  suffices H : ∀ n (bits : List Bool), bits.length = n → W ∣ bits.length →
      windowSum W ((chunksExact W bits).map chunkValue) = bitsVal bits from
    H bits.length bits rfl hd
  intro n
  induction n using Nat.strong_induction_on with
  | _ n ih =>
    intro bits hlen hdvd
    by_cases h : W ≤ bits.length
    · rw [chunksExact_cons W hW bits h, List.map_cons]
      simp only [windowSum]
      rw [ih ((bits.drop W).length) (by rw [List.length_drop]; omega) (bits.drop W) rfl
        (by rw [List.length_drop]; exact Nat.dvd_sub' hdvd dvd_rfl)]
      rw [chunkValue_eq_bitsVal]
      conv_rhs => rw [← List.take_append_drop W bits]
      rw [bitsVal_append, List.length_take, min_eq_left h]
    · have hzero : bits.length = 0 := Nat.eq_zero_of_dvd_of_lt hdvd (by omega)
      have hb : bits = [] := List.eq_nil_of_length_eq_zero hzero
      subst hb
      rfl

/-! Facts about the zero padding. -/

theorem pad_sum (W NB : ℕ) (hW : 0 < W) :
    NB + padding W NB = W * ((NB + W - 1) / W) := by
  have hq := Nat.div_add_mod NB W
  have hr : NB % W < W := Nat.mod_lt NB hW
  rcases Nat.eq_zero_or_pos (NB % W) with h0 | hpos
  · have hp : padding W NB = 0 := by
      unfold padding
      rw [h0, Nat.sub_zero, Nat.mod_self]
    have hNB : NB = W * (NB / W) := by omega
    rw [hp, Nat.add_zero]
    conv_lhs => rw [hNB]
    congr 1
    have h1 : NB + W - 1 = W * (NB / W) + (W - 1) := by omega
    have h2 : (W - 1) / W = 0 := Nat.div_eq_of_lt (by omega)
    rw [h1, Nat.mul_add_div hW, h2, Nat.add_zero]
  · have hp : padding W NB = W - NB % W := by
      unfold padding
      exact Nat.mod_eq_of_lt (by omega)
    have h1 : NB + W - 1 = W * (NB / W) + (NB % W + W - 1) := by omega
    rw [hp, h1, Nat.mul_add_div hW]
    have h2 : (NB % W + W - 1) / W = 1 := by
      rw [Nat.div_eq]
      rw [if_pos ⟨hW, by omega⟩, Nat.div_eq_of_lt (by omega)]
    rw [h2, Nat.mul_add, Nat.mul_one]
    omega

theorem pad_dvd (W NB : ℕ) (hW : 0 < W) : W ∣ (NB + padding W NB) :=
  ⟨_, pad_sum W NB hW⟩

/-! The modelled inverse of 2 to the W really is its inverse. -/

theorem two_mul_half : (2 : Fp) * (((pallasP + 1) / 2 : ℕ) : Fp) = 1 := by
  have h2 : ((2 : ℕ) : Fp) = 2 := by norm_cast
  rw [← h2, ← Nat.cast_mul]
  have hodd : pallasP % 2 = 1 := by decide
  have hmul : 2 * ((pallasP + 1) / 2) = pallasP + 1 := by omega
  rw [hmul, Nat.cast_add, Nat.cast_one, ZMod.natCast_self, zero_add]

theorem two_pow_mul_inverse (W : ℕ) :
    (2 : Fp) ^ W * NativeRangeCheckChip.two_pow_k_inverse W = 1 := by
  unfold NativeRangeCheckChip.two_pow_k_inverse
  rw [← mul_pow, two_mul_half, one_pow]

namespace NativeRangeCheckChip

/-! Shape of the decomposition chain. -/

theorem chainFrom_length (W : ℕ) (ks : List Fp) : ∀ z, (chainFrom W z ks).length = ks.length + 1 := by
  induction ks with
  | nil => intro z; rfl
  | cons k ks ih => intro z; simp only [chainFrom, List.length_cons, ih, List.length_cons]

theorem chainFrom_head (W : ℕ) (z : Fp) (ks : List Fp) : (chainFrom W z ks).head? = some z := by
  cases ks <;> rfl

theorem chainFrom_shape (W : ℕ) (z : Fp) (ks : List Fp) :
    chainFrom W z ks = z :: (chainFrom W z ks).tail := by
  cases ks <;> rfl

/-! The loaded window table. -/

theorem mem_load_k_table (W : ℕ) (h : 2 ^ W ≤ pallasP) (x : Fp) :
    x ∈ load_k_table W ↔ x.val < 2 ^ W := by
  unfold load_k_table
  simp only [List.mem_map, List.mem_range]
  constructor
  · rintro ⟨i, hi, rfl⟩
    rw [ZMod.val_cast_of_lt (lt_of_lt_of_le hi h)]
    exact hi
  · intro hx
    exact ⟨x.val, hx, ZMod.natCast_rightInverse x⟩

theorem inTable_iff (W : ℕ) (h : 2 ^ W ≤ pallasP) (x : Fp) :
    inTable W x = true ↔ x.val < 2 ^ W := by
  unfold inTable
  rw [decide_eq_true_eq]
  exact mem_load_k_table W h x

/-! The honest chain passes every lookup: each step satisfies
z_curr - z_next * 2^W = k_i by construction, and each window value is a
table member. -/

theorem lookupsOk_chainFrom (W : ℕ) (hT : 2 ^ W ≤ pallasP) :
    ∀ (ks : List ℕ), (∀ k ∈ ks, k < 2 ^ W) →
      ∀ z : Fp, lookupsOk W (chainFrom W z (ks.map (fun k => ((k : ℕ) : Fp)))) = true := by
  intro ks
  induction ks with
  | nil => intro _ z; rfl
  | cons k ks ih =>
    intro hk z
    rw [List.map_cons]
    rw [show chainFrom W z (((k : ℕ) : Fp) :: ks.map (fun k => ((k : ℕ) : Fp)))
        = z :: chainFrom W ((z - ((k : ℕ) : Fp)) * two_pow_k_inverse W)
            (ks.map (fun k => ((k : ℕ) : Fp))) from rfl]
    rw [chainFrom_shape W ((z - ((k : ℕ) : Fp)) * two_pow_k_inverse W)]
    simp only [lookupsOk, Bool.and_eq_true]
    constructor
    · have hz : z - ((z - ((k : ℕ) : Fp)) * two_pow_k_inverse W) * (2 : Fp) ^ W
          = ((k : ℕ) : Fp) := by
        have h1 : (2 : Fp) ^ W * two_pow_k_inverse W = 1 := two_pow_mul_inverse W
        linear_combination (((k : ℕ) : Fp) - z) * h1
      rw [hz, inTable_iff W hT]
      have hklt : k < 2 ^ W := hk k (List.mem_cons_self k ks)
      rw [ZMod.val_cast_of_lt (lt_of_lt_of_le hklt hT)]
      exact hklt
    · rw [← chainFrom_shape]
      exact ih (fun j hj => hk j (List.mem_cons_of_mem k hj)) _

/-! Closed form of the last chain element. -/

theorem chainFrom_getLast (W : ℕ) :
    ∀ (ks : List Fp) (z : Fp),
      (chainFrom W z ks).getLast?
        = some ((z - windowSumF W ks) * (two_pow_k_inverse W) ^ ks.length) := by
  intro ks
  induction ks with
  | nil =>
    intro z
    simp [chainFrom, windowSumF]
  | cons k ks ih =>
    intro z
    rw [show chainFrom W z (k :: ks)
        = z :: chainFrom W ((z - k) * two_pow_k_inverse W) ks from rfl]
    rw [chainFrom_shape W ((z - k) * two_pow_k_inverse W) ks, List.getLast?_cons_cons,
      ← chainFrom_shape, ih]
    congr 1
    have h1 : (2 : Fp) ^ W * two_pow_k_inverse W = 1 := two_pow_mul_inverse W
    simp only [windowSumF, List.length_cons, pow_succ]
    linear_combination (two_pow_k_inverse W ^ ks.length * windowSumF W ks) * h1

theorem mul_inverse_pow_eq_zero_iff (W n : ℕ) (x : Fp) :
    x * (two_pow_k_inverse W) ^ n = 0 ↔ x = 0 := by
  constructor
  · intro h
    have h2 : x * (two_pow_k_inverse W) ^ n * ((2 : Fp) ^ W) ^ n = 0 := by
      rw [h, zero_mul]
    rwa [mul_assoc, ← mul_pow, mul_comm (two_pow_k_inverse W), two_pow_mul_inverse,
      one_pow, mul_one] at h2
  · intro h
    rw [h, zero_mul]

end NativeRangeCheckChip

theorem windowSumF_map_cast (W : ℕ) (ks : List ℕ) :
    windowSumF W (ks.map (fun k => ((k : ℕ) : Fp))) = ((windowSum W ks : ℕ) : Fp) := by
  induction ks with
  | nil => simp [windowSumF, windowSum]
  | cons k ks ih =>
    simp only [List.map_cons, windowSumF, windowSum, ih]
    push_cast
    ring

namespace NativeRangeCheckChip

theorem decompose_value_def (W NB : ℕ) (v : Fp) :
    decompose_value W NB v
      = chunksExact W (toLeBits v.val NB ++ List.replicate (padding W NB) false) := rfl

/-- Every window value is in the table domain, unconditionally. -/
theorem windowValues_lt (W NB : ℕ) (hW : 0 < W) (v : Fp) :
    ∀ k ∈ windowValues W NB v, k < 2 ^ W := by
  intro k hk
  unfold windowValues at hk
  rw [decompose_value_def] at hk
  simp only [List.mem_map] at hk
  obtain ⟨c, hc, rfl⟩ := hk
  have hlen : c.length = W := chunksExact_mem_length W hW _ c hc
  rw [chunkValue_eq_bitsVal, ← hlen]
  exact bitsVal_lt c

theorem bits_length (W NB : ℕ) (v : Fp) :
    (toLeBits v.val NB ++ List.replicate (padding W NB) false).length
      = NB + padding W NB := by
  simp [toLeBits_length]

/-- The windows reconstruct exactly the low NB bits of the value. -/
theorem windowSum_windowValues (W NB : ℕ) (hW : 0 < W) (v : Fp) :
    windowSum W (windowValues W NB v) = v.val % 2 ^ NB := by
  unfold windowValues
  rw [decompose_value_def]
  rw [windowSum_chunks W hW _ (by rw [bits_length]; exact pad_dvd W NB hW)]
  rw [bitsVal_append, bitsVal_replicate_false, Nat.mul_zero, Nat.add_zero]
  exact bitsVal_toLeBits NB v.val

theorem windowValues_length (W NB : ℕ) (hW : 0 < W) (v : Fp) :
    (windowValues W NB v).length = (NB + W - 1) / W := by
  unfold windowValues
  rw [decompose_value_def, List.length_map, chunksExact_length W hW, bits_length,
    pad_sum W NB hW, Nat.mul_div_cancel_left _ hW]

theorem windowValuesF_eq (W NB : ℕ) (v : Fp) :
    windowValuesF W NB v = (windowValues W NB v).map (fun k => ((k : ℕ) : Fp)) := by
  unfold windowValuesF windowValues
  rw [List.map_map]
  rfl

/-- When the parameters are consistent the two witness-time assertions pass
and decompose returns the honest chain. -/
theorem decompose_eq (W NB NW : ℕ) (hW : 0 < W) (hA : W * NW < NB + W)
    (hC : (NB + W - 1) / W = NW) (v : Fp) :
    decompose W NB NW v = some (chainFrom W v (windowValuesF W NB v)) := by
  unfold decompose
  rw [if_pos hA, if_pos]
  rw [chainFrom_length, windowValuesF_eq, List.length_map,
    windowValues_length W NB hW, hC]

/-- The final chain element assigned by decompose is zero exactly when the
canonical integer of the value fits in NB bits. -/
theorem chain_last_zero_iff (W NB : ℕ) (hW : 0 < W) (hNB : 2 ^ NB ≤ pallasP)
    (v : Fp) :
    (chainFrom W v (windowValuesF W NB v)).getLast? = some 0 ↔ v.val < 2 ^ NB := by
  have hpos : 0 < 2 ^ NB := Nat.pos_pow_of_pos NB (by omega)
  rw [windowValuesF_eq, chainFrom_getLast]
  rw [Option.some_inj, mul_inverse_pow_eq_zero_iff, sub_eq_zero,
    windowSumF_map_cast, windowSum_windowValues W NB hW]
  constructor
  · intro h
    have hval : v.val = v.val % 2 ^ NB := by
      conv_lhs => rw [h]
      rw [ZMod.val_cast_of_lt (lt_of_lt_of_le (Nat.mod_lt _ hpos) hNB)]
    have hm := Nat.mod_lt v.val hpos
    omega
  · intro h
    rw [Nat.mod_eq_of_lt h]
    exact (ZMod.natCast_rightInverse v).symm

theorem rangeCheckOk_chain_strict (W NB : ℕ) (hW : 0 < W) (hT : 2 ^ W ≤ pallasP)
    (hNB : 2 ^ NB ≤ pallasP) (v : Fp) :
    rangeCheckOk W (chainFrom W v (windowValuesF W NB v)) true
      = decide (v.val < 2 ^ NB) := by
  unfold rangeCheckOk
  rw [windowValuesF_eq, lookupsOk_chainFrom W hT _ (windowValues_lt W NB hW v)]
  simp only [Bool.true_and, Bool.not_true, Bool.false_or]
  rw [decide_eq_decide, ← windowValuesF_eq]
  exact chain_last_zero_iff W NB hW hNB v

/-- Evaluation of the non-strict range-check constraints on the honest
chain: only the lookups are checked and they always pass. -/
theorem rangeCheckOk_chain_nonstrict (W NB : ℕ) (hW : 0 < W) (hT : 2 ^ W ≤ pallasP)
    (v : Fp) :
    rangeCheckOk W (chainFrom W v (windowValuesF W NB v)) false = true := by
  unfold rangeCheckOk
  rw [windowValuesF_eq, lookupsOk_chainFrom W hT _ (windowValues_lt W NB hW v)]
  rfl

/-- Strict witness_range_check at the main.rs parameters, fully
characterized. -/
theorem witness_range_check_strict_eq (v : Fp) :
    witness_range_check WINDOW_SIZE NUM_BITS NUM_WINDOWS v true
      = some (decide (v.val < 2 ^ NUM_BITS)) := by
  unfold witness_range_check
  rw [decompose_eq WINDOW_SIZE NUM_BITS NUM_WINDOWS (by norm_num [WINDOW_SIZE])
    (by norm_num [WINDOW_SIZE, NUM_BITS, NUM_WINDOWS])
    (by norm_num [WINDOW_SIZE, NUM_BITS, NUM_WINDOWS]) v]
  rw [Option.map_some']
  rw [rangeCheckOk_chain_strict WINDOW_SIZE NUM_BITS (by norm_num [WINDOW_SIZE])
    (by decide) (by decide) v]

/-- Non-strict witness_range_check at the main.rs parameters: always
satisfied. -/
theorem witness_range_check_nonstrict_eq (v : Fp) :
    witness_range_check WINDOW_SIZE NUM_BITS NUM_WINDOWS v false = some true := by
  unfold witness_range_check
  rw [decompose_eq WINDOW_SIZE NUM_BITS NUM_WINDOWS (by norm_num [WINDOW_SIZE])
    (by norm_num [WINDOW_SIZE, NUM_BITS, NUM_WINDOWS])
    (by norm_num [WINDOW_SIZE, NUM_BITS, NUM_WINDOWS]) v]
  rw [Option.map_some']
  rw [rangeCheckOk_chain_nonstrict WINDOW_SIZE NUM_BITS (by norm_num [WINDOW_SIZE])
    (by decide) v]

end NativeRangeCheckChip

namespace LessThanChip

theorem two_pow_m_eq (NB : ℕ) : two_pow_m NB = ((2 ^ NB : ℕ) : Fp) := by
  unfold two_pow_m
  push_cast
  ring

/-- The field computation of a_offset agrees with the integer computation
a.val + (2^NB - b.val) whenever b is within the representable bound. -/
theorem less_than_cast (NB : ℕ) (a b : Fp) (hb : b.val ≤ 2 ^ NB) :
    less_than NB a b = ((a.val + (2 ^ NB - b.val) : ℕ) : Fp) := by
  unfold less_than
  rw [two_pow_m_eq]
  conv_lhs =>
    rw [show a = ((a.val : ℕ) : Fp) from (ZMod.natCast_rightInverse a).symm,
      show b = ((b.val : ℕ) : Fp) from (ZMod.natCast_rightInverse b).symm]
  rw [← Nat.cast_sub hb, ← Nat.cast_add]

theorem less_than_val (NB : ℕ) (hNB1 : 2 ^ (NB + 1) ≤ pallasP) (a b : Fp)
    (ha : a.val < 2 ^ NB) (hb : b.val ≤ 2 ^ NB) :
    (less_than NB a b).val = a.val + (2 ^ NB - b.val) := by
  rw [less_than_cast NB a b hb]
  have hp : 2 ^ (NB + 1) = 2 ^ NB * 2 := pow_succ 2 NB
  exact ZMod.val_cast_of_lt (by omega)

/-- The honest a_offset always satisfies the registered gate. -/
theorem gateOk_less_than (NB : ℕ) (a b : Fp) :
    gateOk NB a b (less_than NB a b) = true := by
  unfold gateOk less_than
  rw [decide_eq_true_eq]
  ring

/-- Full characterization of strict less_than satisfiability at the
main.rs parameters, for any a in range and b within the representable
bound: the instance is satisfied exactly when the integer
a.val + (2^253 - b.val) fits in 253 bits. -/
theorem lessThanSat_strict_eq (a b : Fp) (ha : a.val < 2 ^ NUM_BITS)
    (hb : b.val ≤ 2 ^ NUM_BITS) :
    lessThanSat WINDOW_SIZE NUM_BITS NUM_WINDOWS a b true
      = some (decide (a.val + (2 ^ NUM_BITS - b.val) < 2 ^ NUM_BITS)) := by
  have hoff : (less_than NUM_BITS a b).val = a.val + (2 ^ NUM_BITS - b.val) :=
    less_than_val NUM_BITS (by decide) a b ha hb
  unfold lessThanSat witness_less_than
  rw [NativeRangeCheckChip.decompose_eq WINDOW_SIZE NUM_BITS NUM_WINDOWS
      (by norm_num [WINDOW_SIZE]) (by norm_num [WINDOW_SIZE, NUM_BITS, NUM_WINDOWS])
      (by norm_num [WINDOW_SIZE, NUM_BITS, NUM_WINDOWS]) a,
    NativeRangeCheckChip.decompose_eq WINDOW_SIZE NUM_BITS NUM_WINDOWS
      (by norm_num [WINDOW_SIZE]) (by norm_num [WINDOW_SIZE, NUM_BITS, NUM_WINDOWS])
      (by norm_num [WINDOW_SIZE, NUM_BITS, NUM_WINDOWS]) (less_than NUM_BITS a b)]
  simp only [Option.some_bind, Option.map_some']
  refine congrArg some ?_
  unfold circuitOk
  simp only
  rw [gateOk_less_than,
    NativeRangeCheckChip.rangeCheckOk_chain_strict WINDOW_SIZE NUM_BITS
      (by norm_num [WINDOW_SIZE]) (by decide) (by decide) a,
    NativeRangeCheckChip.rangeCheckOk_chain_strict WINDOW_SIZE NUM_BITS
      (by norm_num [WINDOW_SIZE]) (by decide) (by decide) (less_than NUM_BITS a b),
    NativeRangeCheckChip.chainFrom_head, NativeRangeCheckChip.chainFrom_head]
  rw [decide_eq_true ha, hoff]
  simp

end LessThanChip

/-! Claim theorems. -/

open NativeRangeCheckChip LessThanChip

/-- Claim C1, counterexample: at the boundary pair a = 2^253 - 1,
b = 2^253 (with the main.rs parameters and strict mode), the circuit
produced by witness_less_than is satisfied, not unsatisfiable as claimed:
main.rs itself lists this pair under SHOULD PASS. -/
theorem C1_counterexample :
    lessThanSat WINDOW_SIZE NUM_BITS NUM_WINDOWS
      ((2 ^ 253 - 1 : ℕ) : Fp) ((2 ^ 253 : ℕ) : Fp) true = some true := by
  rw [lessThanSat_strict_eq _ _ (by decide) (by decide)]
  decide

/-- Claim C1, amended: for the pair a = 2^253 - 1, b = 2^253, the circuit
produced by witness_less_than(a, b, strict=true) is satisfiable even though
b exceeds the representable bound, because b itself is never range-checked:
only a and a_offset = a + 2^253 - b = 2^253 - 1 are, and both lie in
range, while a < b holds on canonical integers. -/
theorem C1_amended :
    (((2 ^ 253 - 1 : ℕ) : Fp)).val < (((2 ^ 253 : ℕ) : Fp)).val
    ∧ 2 ^ NUM_BITS ≤ (((2 ^ 253 : ℕ) : Fp)).val
    ∧ lessThanSat WINDOW_SIZE NUM_BITS NUM_WINDOWS
        ((2 ^ 253 - 1 : ℕ) : Fp) ((2 ^ 253 : ℕ) : Fp) true = some true := by
  refine ⟨by decide, by decide, ?_⟩
  rw [lessThanSat_strict_eq _ _ (by decide) (by decide)]
  decide

/-- Claim C2, counterexample: for the under-capacity parameterization
WINDOW_SIZE = 3, NUM_BITS = 7, NUM_WINDOWS = 2 (window capacity 6 < 7),
configure does not reject: it returns a config exactly as for any other
parameters, the explicit witness-time assertion W * NW < NB + W passes as
well, and the failure only surfaces as a witness-time panic (the chain
length assertion), falsifying rejection at configure time. -/
theorem C2_counterexample :
    3 * 2 < 7
    ∧ NativeRangeCheckChip.configure 3 7 2 0 0 = { z := 0, s_rc := 0, k_values_table := 0 }
    ∧ 3 * 2 < 7 + 3
    ∧ NativeRangeCheckChip.decompose 3 7 2 (0 : Fp) = none := by
  exact ⟨by decide, rfl, by decide, by decide⟩

/-- Claim C2, amended: configure performs no parameter validation and
returns a config for every parameterization.  A configuration with
WINDOW_SIZE * NUM_WINDOWS < NUM_BITS even passes the explicit assertion
WINDOW_SIZE * NUM_WINDOWS < NUM_BITS + WINDOW_SIZE in decompose; it is
rejected only at witness time, as a panic of decompose's chain-length
assertion (the decomposition yields more windows than NUM_WINDOWS), not at
configure time and not with a descriptive configuration error. -/
theorem C2_amended (W NB NW z t : ℕ) (v : Fp) (hW : 0 < W) (h : W * NW < NB) :
    NativeRangeCheckChip.configure W NB NW z t = { z := z, s_rc := 0, k_values_table := t }
    ∧ W * NW < NB + W
    ∧ NativeRangeCheckChip.decompose W NB NW v = none := by
  refine ⟨rfl, by omega, ?_⟩
  have hceil : NW < (NB + W - 1) / W := by
    have h1 := pad_sum W NB hW
    have h2 : W * NW < W * ((NB + W - 1) / W) := by omega
    exact Nat.lt_of_mul_lt_mul_left h2
  have hL : (chainFrom W v (windowValuesF W NB v)).length ≠ NW + 1 := by
    rw [chainFrom_length, windowValuesF_eq, List.length_map,
      windowValues_length W NB hW]
    omega
  unfold NativeRangeCheckChip.decompose
  rw [if_pos (by omega), if_neg hL]

/-- Claim C2, witness for the amended theorem at the concrete
under-capacity parameterization (3, 7, 2). -/
theorem C2_amended_witness :
    ((0 : ℕ) < 3 ∧ 3 * 2 < 7)
    ∧ (NativeRangeCheckChip.configure 3 7 2 5 9 = { z := 5, s_rc := 0, k_values_table := 9 }
        ∧ 3 * 2 < 7 + 3
        ∧ NativeRangeCheckChip.decompose 3 7 2 (1 : Fp) = none) :=
  ⟨⟨by decide, by decide⟩, C2_amended 3 7 2 5 9 1 (by decide) (by decide)⟩

/-- Claim C3: for all field values a, b whose canonical integers lie in
the representable range with a at least b, the circuit produced by
witness_less_than(a, b, strict=true) is unsatisfiable (the honest witness
violates the final-zero constraint on the a_offset chain), and the gadget
call itself raises no exception: it returns a completed witness, reported
here as some false rather than none. -/
theorem C3_ge_unsatisfiable (a b : Fp) (ha : a.val < 2 ^ NUM_BITS)
    (hb : b.val < 2 ^ NUM_BITS) (hba : b.val ≤ a.val) :
    lessThanSat WINDOW_SIZE NUM_BITS NUM_WINDOWS a b true = some false := by
  rw [lessThanSat_strict_eq a b ha (le_of_lt hb)]
  exact congrArg some (decide_eq_false (by omega))

/-- Claim C3, witness at the concrete pair a = 1, b = 0. -/
theorem C3_witness :
    (((1 : ℕ) : Fp)).val < 2 ^ NUM_BITS
    ∧ (((0 : ℕ) : Fp)).val < 2 ^ NUM_BITS
    ∧ (((0 : ℕ) : Fp)).val ≤ (((1 : ℕ) : Fp)).val
    ∧ lessThanSat WINDOW_SIZE NUM_BITS NUM_WINDOWS
        ((1 : ℕ) : Fp) ((0 : ℕ) : Fp) true = some false :=
  ⟨by decide, by decide, by decide,
    C3_ge_unsatisfiable ((1 : ℕ) : Fp) ((0 : ℕ) : Fp) (by decide) (by decide) (by decide)⟩

/-- Claim C4: for all field values a, b with canonical integers
a < b < 2^253, the circuit produced by witness_less_than(a, b, strict=true)
is satisfiable: the honest witness satisfies the linear gate, every
lookup, and both strict final-zero constraints. -/
theorem C4_lt_satisfiable (a b : Fp) (hab : a.val < b.val)
    (hb : b.val < 2 ^ NUM_BITS) :
    lessThanSat WINDOW_SIZE NUM_BITS NUM_WINDOWS a b true = some true := by
  rw [lessThanSat_strict_eq a b (lt_trans hab hb) (le_of_lt hb)]
  exact congrArg some (decide_eq_true (by omega))

/-- Claim C4, witness at the concrete pair a = 0, b = 1. -/
theorem C4_witness :
    (((0 : ℕ) : Fp)).val < (((1 : ℕ) : Fp)).val
    ∧ (((1 : ℕ) : Fp)).val < 2 ^ NUM_BITS
    ∧ lessThanSat WINDOW_SIZE NUM_BITS NUM_WINDOWS
        ((0 : ℕ) : Fp) ((1 : ℕ) : Fp) true = some true :=
  ⟨by decide, by decide,
    C4_lt_satisfiable ((0 : ℕ) : Fp) ((1 : ℕ) : Fp) (by decide) (by decide)⟩

/-- Claim C5: the non-strict range check admits exactly the values whose
canonical integer is at most 2^(WINDOW_SIZE * NUM_WINDOWS) - 1 (every
field element qualifies, and every honest non-strict instance is
satisfied), and the bound is not 2^NUM_BITS - 1: the value 2^253 exceeds
2^NUM_BITS - 1 yet is admitted. -/
theorem C5_nonstrict_bound :
    (∀ v : Fp,
      witness_range_check WINDOW_SIZE NUM_BITS NUM_WINDOWS v false = some true
        ↔ v.val ≤ 2 ^ (WINDOW_SIZE * NUM_WINDOWS) - 1)
    ∧ witness_range_check WINDOW_SIZE NUM_BITS NUM_WINDOWS
        ((2 ^ 253 : ℕ) : Fp) false = some true
    ∧ 2 ^ NUM_BITS - 1 < (((2 ^ 253 : ℕ) : Fp)).val := by
  refine ⟨fun v => ⟨fun _ => ?_, fun _ => witness_range_check_nonstrict_eq v⟩,
    witness_range_check_nonstrict_eq _, by decide⟩
  have hv := ZMod.val_lt v
  have hP : pallasP ≤ 2 ^ (WINDOW_SIZE * NUM_WINDOWS) := by decide
  omega

/-- Claim C6, counterexample: on the input 2^253 (whose canonical integer
does not fit in NUM_BITS bits), decompose produces a chain, every window
value is zero, and the weighted window sum is 0, which differs from the
canonical integer 2^253 of the input: the round-trip identity fails for
out-of-range values. -/
theorem C6_counterexample :
    (decompose WINDOW_SIZE NUM_BITS NUM_WINDOWS ((2 ^ 253 : ℕ) : Fp)).isSome = true
    ∧ windowSum WINDOW_SIZE (windowValues WINDOW_SIZE NUM_BITS ((2 ^ 253 : ℕ) : Fp)) = 0
    ∧ (((2 ^ 253 : ℕ) : Fp)).val = 2 ^ 253
    ∧ (0 : ℕ) ≠ 2 ^ 253 := by
  refine ⟨?_, ?_, by decide, by decide⟩
  · rw [decompose_eq WINDOW_SIZE NUM_BITS NUM_WINDOWS (by decide) (by decide) (by decide)]
    rfl
  · rw [windowSum_windowValues WINDOW_SIZE NUM_BITS (by decide)]
    decide

/-- Claim C6, amended: for every input value whose canonical integer fits
in NUM_BITS bits, each window value produced by decompose lies in
[0, 2^WINDOW_SIZE) and the weighted window sum reconstructs the value
exactly; the window bound holds unconditionally, while the round-trip
identity holds modulo 2^NUM_BITS in general. -/
theorem C6_amended (W NB : ℕ) (v : Fp) (hW : 0 < W) (hv : v.val < 2 ^ NB) :
    (∀ k ∈ windowValues W NB v, k < 2 ^ W)
    ∧ windowSum W (windowValues W NB v) = v.val :=
  ⟨windowValues_lt W NB hW v, by
    rw [windowSum_windowValues W NB hW v, Nat.mod_eq_of_lt hv]⟩

/-- Claim C6, witness for the amended theorem at W = 3, NB = 253, v = 5. -/
theorem C6_amended_witness :
    ((0 : ℕ) < 3 ∧ (((5 : ℕ) : Fp)).val < 2 ^ 253)
    ∧ ((∀ k ∈ windowValues 3 253 ((5 : ℕ) : Fp), k < 2 ^ 3)
        ∧ windowSum 3 (windowValues 3 253 ((5 : ℕ) : Fp)) = (((5 : ℕ) : Fp)).val) :=
  ⟨⟨by decide, by decide⟩, C6_amended 3 253 ((5 : ℕ) : Fp) (by decide) (by decide)⟩

/-- Claim C7: witness_less_than computes a_offset = a + (2^NUM_BITS - b)
in field arithmetic, and the single gate registered by configure,
a_offset - 2^NUM_BITS + b - a = 0, is satisfied by the honestly assigned
triple for all field values a and b. -/
theorem C7_gate_always_satisfied :
    ∀ a b : Fp,
      less_than NUM_BITS a b = a + (two_pow_m NUM_BITS - b)
      ∧ gateOk NUM_BITS a b (less_than NUM_BITS a b) = true :=
  fun a b => ⟨rfl, gateOk_less_than NUM_BITS a b⟩

/-- Claim C8: load_k_table populates the lookup table with exactly
2^WINDOW_SIZE rows, pairwise distinct, and a field element is among the
rows exactly when its canonical integer is below 2^WINDOW_SIZE: the rows
are 0, 1, ..., 2^WINDOW_SIZE - 1, each exactly once, no gaps. -/
theorem C8_table_exact (W : ℕ) (h : 2 ^ W ≤ pallasP) :
    (load_k_table W).length = 2 ^ W
    ∧ (load_k_table W).Nodup
    ∧ ∀ x : Fp, x ∈ load_k_table W ↔ x.val < 2 ^ W := by
  refine ⟨by simp [load_k_table], ?_, mem_load_k_table W h⟩
  unfold load_k_table
  refine List.Nodup.map_on ?_ (List.nodup_range _)
  intro i hi j hj hij
  rw [List.mem_range] at hi hj
  calc i = ((i : ℕ) : Fp).val := (ZMod.val_cast_of_lt (lt_of_lt_of_le hi h)).symm
    _ = ((j : ℕ) : Fp).val := by rw [hij]
    _ = j := ZMod.val_cast_of_lt (lt_of_lt_of_le hj h)

/-- Claim C8, witness at the program's window size W = 3. -/
theorem C8_witness :
    2 ^ WINDOW_SIZE ≤ pallasP
    ∧ ((load_k_table WINDOW_SIZE).length = 2 ^ WINDOW_SIZE
        ∧ (load_k_table WINDOW_SIZE).Nodup
        ∧ ∀ x : Fp, x ∈ load_k_table WINDOW_SIZE ↔ x.val < 2 ^ WINDOW_SIZE) :=
  ⟨by decide, C8_table_exact WINDOW_SIZE (by decide)⟩

/-- Claim C9: decompose guards every call with the witness-time assertion
WINDOW_SIZE * NUM_WINDOWS < NUM_BITS + WINDOW_SIZE and panics when it
fails; under the precondition NUM_WINDOWS = ceil(NUM_BITS / WINDOW_SIZE)
the assertion holds and decompose, witness_range_check and
copy_range_check all complete without panic. -/
theorem C9_decompose_assert (W NB NW : ℕ) (v : Fp) (hW : 0 < W)
    (hNW : NW = (NB + W - 1) / W) :
    W * NW < NB + W
    ∧ (decompose W NB NW v).isSome = true
    ∧ (∀ strict, (witness_range_check W NB NW v strict).isSome = true
        ∧ (copy_range_check W NB NW v strict).isSome = true)
    ∧ (∀ (W2 NB2 NW2 : ℕ) (v2 : Fp), ¬ (W2 * NW2 < NB2 + W2) →
        decompose W2 NB2 NW2 v2 = none) := by
  have hA : W * NW < NB + W := by
    subst hNW
    have h1 : W * ((NB + W - 1) / W) ≤ NB + W - 1 := by
      rw [mul_comm]
      exact Nat.div_mul_le_self _ _
    omega
  refine ⟨hA, ?_, ?_, ?_⟩
  · rw [decompose_eq W NB NW hW hA hNW.symm v]
    rfl
  · intro strict
    constructor
    · unfold witness_range_check
      rw [decompose_eq W NB NW hW hA hNW.symm v, Option.map_some']
      rfl
    · unfold copy_range_check witness_range_check
      rw [decompose_eq W NB NW hW hA hNW.symm v, Option.map_some']
      rfl
  · intro W2 NB2 NW2 v2 h2
    unfold NativeRangeCheckChip.decompose
    rw [if_neg h2]

/-- Claim C9, witness at the main.rs parameters (3, 253, 85), which
satisfy the ceiling precondition. -/
theorem C9_witness :
    ((0 : ℕ) < 3 ∧ 85 = (253 + 3 - 1) / 3)
    ∧ (3 * 85 < 253 + 3
        ∧ (decompose 3 253 85 (1 : Fp)).isSome = true
        ∧ (∀ strict, (witness_range_check 3 253 85 (1 : Fp) strict).isSome = true
            ∧ (copy_range_check 3 253 85 (1 : Fp) strict).isSome = true)
        ∧ (∀ (W2 NB2 NW2 : ℕ) (v2 : Fp), ¬ (W2 * NW2 < NB2 + W2) →
            decompose W2 NB2 NW2 v2 = none)) :=
  ⟨⟨by decide, by decide⟩, C9_decompose_assert 3 253 85 (1 : Fp) (by decide) (by decide)⟩

/-- Claim C10: decompose_value uses only the low NUM_BITS bits of its
input: the weighted window sum equals the canonical integer reduced modulo
2^NUM_BITS; consequently the final chain element assigned by decompose is
zero exactly when the canonical integer is below 2^NUM_BITS, and the
honest strict witness is satisfied exactly for such values. -/
theorem C10_low_bits_final_zero :
    ∀ v : Fp,
      windowSum WINDOW_SIZE (windowValues WINDOW_SIZE NUM_BITS v)
        = v.val % 2 ^ NUM_BITS
      ∧ (∃ zs, decompose WINDOW_SIZE NUM_BITS NUM_WINDOWS v = some zs
          ∧ (zs.getLast? = some 0 ↔ v.val < 2 ^ NUM_BITS))
      ∧ (witness_range_check WINDOW_SIZE NUM_BITS NUM_WINDOWS v true = some true
          ↔ v.val < 2 ^ NUM_BITS) := by
  intro v
  refine ⟨windowSum_windowValues WINDOW_SIZE NUM_BITS (by decide) v,
    ⟨_, decompose_eq WINDOW_SIZE NUM_BITS NUM_WINDOWS (by decide) (by decide) (by decide) v,
      chain_last_zero_iff WINDOW_SIZE NUM_BITS (by decide) (by decide) v⟩, ?_⟩
  rw [witness_range_check_strict_eq v]
  simp only [Option.some_inj, decide_eq_true_eq]

end Halo2LessThan
